import Mathlib

/-!
Verification development for the surface-wave dispersion notebook
(`SurfaceWaveDispersion.ipynb`).

The notebook's pipeline is embedded shallowly over exact arithmetic:
traces are lists of rationals, numpy reductions (`mean`, `std`, `argmax`,
`argmin`) are structural recursions with numpy's tie-breaking (first index
wins), fallible numpy calls (e.g. `argmax` of an empty slice raises) are
modelled with `Option`/`Except`, and the normalized cross-correlation of
`obspy.signal.cross_correlation.correlate` is modelled over the reals,
because its naive normalization divides by a square root.

External library routines that the notebook calls (`pycwt.cwt`, obspy's
band-pass filter and envelope) are not part of the repository; where a
claim depends on them they are modelled from the specification text, each
with a doc comment saying exactly what is modelled.
-/

/-- Population mean, as computed by `numpy.mean` (sum over length; the
mean of an empty array is a division by zero). -/
def np_mean (l : List ℚ) : ℚ := l.sum / l.length

/-- Population variance (mean squared deviation), the square of
`numpy.std`. -/
def np_var (l : List ℚ) : ℚ := (l.map (fun x => (x - np_mean l) ^ 2)).sum / l.length

/-- Standard deviation as used by `mydata.std()` in the notebook.  The
true standard deviation is the square root of `np_var`, which is
irrational in general; every claim about the notebook depends only on
whether the standard deviation is zero, and a square root of a
non-negative rational vanishes exactly when the rational does, so the
variance itself serves as the exact-arithmetic stand-in. -/
def np_std (l : List ℚ) : ℚ := np_var l

/-- Accumulator for `numpy.argmax`: `bi` and `bv` are the index and value
of the best element seen so far, `i` is the index of the head of the
remaining list.  The best value is replaced only when a strictly greater
value appears, so the first occurrence of the maximum wins, as in numpy. -/
def argmaxAux : List ℚ → ℕ → ℚ → ℕ → ℕ × ℚ
  | [], bi, bv, _ => (bi, bv)
  | x :: xs, bi, bv, i => if bv < x then argmaxAux xs i x (i + 1) else argmaxAux xs bi bv (i + 1)

/-- Index of the first maximum of a list, as `numpy.argmax`;
`none` models the `ValueError` numpy raises on an empty sequence. -/
def np_argmax : List ℚ → Option ℕ
  | [] => none
  | x :: xs => some (argmaxAux xs 0 x 1).1

/-- Accumulator for `numpy.argmin`, mirror image of `argmaxAux`. -/
def argminAux : List ℚ → ℕ → ℚ → ℕ → ℕ × ℚ
  | [], bi, bv, _ => (bi, bv)
  | x :: xs, bi, bv, i => if x < bv then argminAux xs i x (i + 1) else argminAux xs bi bv (i + 1)

/-- Index of the first minimum of a list, as `numpy.argmin`;
`none` models the `ValueError` numpy raises on an empty sequence. -/
def np_argmin : List ℚ → Option ℕ
  | [] => none
  | x :: xs => some (argminAux xs 0 x 1).1

/-- Contiguous slice `row[a:b]` of a one-dimensional numpy array
(clipping at the ends, empty when `b ≤ a`). -/
def npslice (row : List ℚ) (a b : ℕ) : List ℚ := (row.drop a).take (b - a)

/-- One seismogram component: uniformly sampled values together with the
sample interval `delta` (obspy `Trace` with `stats.delta`). -/
structure Trace where
  data : List ℚ
  delta : ℚ
deriving DecidableEq

/-- Value copy of a trace, as `st.copy()`: the copy is a fresh object, so
in-place mutation of the copy cannot reach the original. -/
def Trace.copy (tr : Trace) : Trace := ⟨tr.data, tr.delta⟩

/-- Failure of a band-pass filter call, named after the specification's
`InvalidBandError`. -/
inductive BandError where
  | InvalidBandError
deriving DecidableEq

/-- Modelled from the spec: the numeric effect of obspy's zero-phase
Butterworth band-pass on the sample values.  The filtered values are
produced by external scipy code and are not determined by the
specification; no claim depends on them, so an executable stand-in is
used that keeps the length and depends on the pass band. -/
def bandpassData (data : List ℚ) (freqmin freqmax : ℚ) : List ℚ :=
  data.map (fun x => x * (freqmax - freqmin))

/-- Modelled from the spec: `st.filter("bandpass", freqmin, freqmax, ...)`
on a trace.  Section 7 of the specification fixes the failure mode —
"center period band exceeding Nyquist frequency → fails with an
`InvalidBandError`" — so the call fails exactly when the upper corner
frequency exceeds the Nyquist frequency `1 / (2 delta)`, and otherwise
replaces the sample values, keeping the sampling metadata. -/
def bandpassFilter (tr : Trace) (freqmin freqmax : ℚ) : Except BandError Trace :=
  if 1 / (2 * tr.delta) < freqmax then Except.error BandError.InvalidBandError
  else Except.ok ⟨bandpassData tr.data freqmin freqmax, tr.delta⟩

/-- Modelled from the spec: `obspy.signal.filter.envelope`, the magnitude
of the analytic signal.  The Hilbert transform is external and
transcendental; no claim depends on the envelope values, so the pointwise
magnitude serves as the executable stand-in. -/
def np_envelope (data : List ℚ) : List ℚ := data.map (fun x => |x|)

/-- Notebook-level mutable state relevant to the filtering loops: the two
receiver streams `st` and `st2` (one component each). -/
structure Env where
  st : Trace
  st2 : Trace
deriving DecidableEq

/-- Body of the group-velocity picking loop (cell "Group Velocity",
`for i, T in enumerate(myPeriods)`): copy the stream, band-pass the copy
in place around period `T` with cutoffs `0.85 / T` and `1.15 / T`, take
the envelope, pick the time of its maximum.  The environment is returned
alongside the pick, recording that the loop body never rebinds `st`. -/
def envelopePickStep (env : Env) (ti : List ℚ) (T : ℚ) : Except BandError (Env × ℚ) :=
  match bandpassFilter (Trace.copy env.st) (0.85 / T) (1.15 / T) with
  | Except.error e => Except.error e
  | Except.ok st_f =>
      let data_envelope := np_envelope st_f.data
      let idmax := (np_argmax data_envelope).getD 0
      Except.ok (env, ti.getD idmax 0)

/-- The group-velocity picking loop over the period set.  The source loop
has no exception handling, so a filter failure propagates and aborts the
whole loop. -/
def envelopeLoop (env : Env) (ti : List ℚ) : List ℚ → Except BandError (List ℚ)
  | [] => Except.ok []
  | T :: Ts =>
      match envelopePickStep env ti T with
      | Except.error e => Except.error e
      | Except.ok p =>
          match envelopeLoop env ti Ts with
          | Except.error e => Except.error e
          | Except.ok picks => Except.ok (p.2 :: picks)

/-- Unnormalized cross-correlation over exact arithmetic, used only for
the data flow of the phase-velocity loop body (the normalized version,
which divides by a square root, is modelled separately over the reals). -/
def ccStandIn (a b : List ℚ) (nsamples : ℕ) : List ℚ :=
  (List.range (2 * nsamples + 1)).map (fun k => (a.getD k 0) * (b.getD k 0))

/-- Body of the phase-velocity loop (cell "Phase velocity",
`for i, T in enumerate(myPeriods2)`): copy both streams, band-pass both
copies in place with cutoffs `(1 - x_filter) / T` and `(1 + x_filter) / T`,
cross-correlate the filtered copies.  The environment is returned with
the correlation row, recording that the loop body never rebinds `st` or
`st2`. -/
def phaseCorrStep (env : Env) (T x_filter : ℚ) (nsamples : ℕ) :
    Except BandError (Env × List ℚ) :=
  match bandpassFilter (Trace.copy env.st) ((1 - x_filter) / T) ((1 + x_filter) / T) with
  | Except.error e => Except.error e
  | Except.ok f1 =>
      match bandpassFilter (Trace.copy env.st2) ((1 - x_filter) / T) ((1 + x_filter) / T) with
      | Except.error e => Except.error e
      | Except.ok f2 => Except.ok (env, ccStandIn f2.data f1.data nsamples)

/-- Index set `np.where(atshift > dist_km_src12 / Vmax)[0]` of the
physically admissible lags. -/
def id_realistic (atshift : List ℚ) (D Vmax : ℚ) : List ℕ :=
  (List.range atshift.length).filter (fun i => D / Vmax < atshift.getD i 0)

/-- Fancy-indexed lag array `atshift[id_realistic]`: the surviving lags. -/
def atshift_realistic (atshift : List ℚ) (D Vmax : ℚ) : List ℚ :=
  (id_realistic atshift D Vmax).map (fun i => atshift.getD i 0)

/-- Phase velocities `V_phase = dist_km_src12 / atshift` computed from the
surviving lags. -/
def V_phase (atshift : List ℚ) (D Vmax : ℚ) : List ℚ :=
  (atshift_realistic atshift D Vmax).map (fun l => D / l)

/-- Elementwise group velocity
`group_velocity_from_wavelet = dist_km_sr / pickedArrivalWavelet`. -/
def group_velocity_from_wavelet (dist_km_sr : ℚ) (picked : List ℚ) : List ℚ :=
  picked.map (fun t => dist_km_sr / t)

/-- Modelled from the spec: `pycwt.wavelet.cwt` (external library, not in
the repository).  The specification and the source comment fix the output
shape — "wave is shaped (nfreq, nti), with nfreq = J + 1 = 8 * 12 + 1, and
nti the number of samples of the signal" — and that `scales` and `freqs`
both carry one entry per scale, with the scales spanning `J * dj` octaves
above `s0` and `freqs` the associated Fourier frequencies.  The
transcendental scale values `s0 * 2 ^ (j * dj)` and the complex Morlet
coefficients are produced by external FFT code and are not determined by
the specification; no claim depends on those numeric values, so the
entries below are executable rational stand-ins with the specified shape
(one row per scale, one coefficient per input sample). -/
def pycwt_cwt (dat : List ℚ) (dt dj s0 : ℚ) (J : ℚ) :
    List (List (ℚ × ℚ)) × List ℚ × List ℚ × List ℚ :=
  let nfreq : ℕ := (Int.floor J).toNat + 1
  let scales := (List.range nfreq).map (fun j => s0 * 2 ^ j)
  let freqs := scales.map (fun s => 1 / s)
  let wave := scales.map (fun s => dat.map (fun x => (x / s, (0 : ℚ))))
  let coi := dat.map (fun _ => dt)
  (wave, scales, freqs, coi)

/-- Normalization step of `compute_wavelet_power_spectrum`:
`dat_norm = mydata / std`.  There is no guard in the source: the division
happens whatever the standard deviation is. -/
def dat_norm (mydata : List ℚ) : List ℚ := mydata.map (fun x => x / np_std mydata)

/-- The notebook's `compute_wavelet_power_spectrum(mydata, dt)`: normalize
by the standard deviation, run the continuous wavelet transform with
starting scale `s0 = 2 dt`, `dj = 1/12` sub-octave resolution and
`J = 8 / dj` octave span, turn frequencies into periods, square the
coefficient magnitudes, and rectify the power by dividing each row by its
scale (Liu et al. 2007).  Returns `(period, power, wave, coi)`; the
inverse transform `iwave` computed in the source is unused and omitted. -/
def compute_wavelet_power_spectrum (mydata : List ℚ) (dt : ℚ) :
    List ℚ × List (List ℚ) × List (List (ℚ × ℚ)) × List ℚ :=
  let dn := dat_norm mydata
  let s0 := 2 * dt
  let dj : ℚ := 1 / 12
  let J : ℚ := 8 / dj
  let r := pycwt_cwt dn dt dj s0 J
  let wave := r.1
  let scales := r.2.1
  let freqs := r.2.2.1
  let coi := r.2.2.2
  let period := freqs.map (fun f => 1 / f)
  let power0 := wave.map (fun row => row.map (fun z => z.1 ^ 2 + z.2 ^ 2))
  let power := List.zipWith (fun s row => row.map (fun p => p / s)) scales power0
  (period, power, wave, coi)

/-- Index of the sample of `ti` nearest to `t`, as
`np.argmin(np.abs(ti - t))`. -/
def idOfNearest (ti : List ℚ) (t : ℚ) : Option ℕ :=
  np_argmin (ti.map (fun x => |x - t|))

/-- The notebook's `pickArrivalWavelet(ti, power, period, tmin, tmax)`.
The time window is snapped to the sample indices `idtmin`, `idtmax`
nearest to `tmin`, `tmax`; each row of `power` is sliced to
`[idtmin:idtmax]` and the first argmax of the slice, offset by `idtmin`,
indexes `ti` for the pick.  The output is `np.zeros_like(period)` with the
first `power.length` entries overwritten, so entries beyond the number of
rows stay zero.  `none` models the exceptions numpy raises: `argmin` of an
empty `ti`, `argmax` of an empty slice, and index assignment past the end
of the output array (when `period` is shorter than the number of rows). -/
def pickArrivalWavelet (ti : List ℚ) (power : List (List ℚ)) (period : List ℚ)
    (tmin tmax : ℚ) : Option (List ℚ) :=
  match idOfNearest ti tmin, idOfNearest ti tmax with
  | some idtmin, some idtmax =>
      match power.mapM (fun row => np_argmax (npslice row idtmin idtmax)) with
      | none => none
      | some js =>
          if period.length < power.length then none
          else some ((List.range period.length).map (fun i =>
            if i < (js.map (fun j => j + idtmin)).length then
              ti.getD ((js.map (fun j => j + idtmin)).getD i 0) 0 else 0))
  | _, _ => none

/-- Mean over the reals, for the cross-correlation model. -/
noncomputable def np_meanR (a : List ℝ) : ℝ := a.sum / a.length

/-- Demeaning step of `obspy.signal.cross_correlation.correlate`
(`demean=True`, the default used by the notebook). -/
noncomputable def demeanR (a : List ℝ) : List ℝ := a.map (fun x => x - np_meanR a)

/-- Zero-padded sample access at a signed index. -/
noncomputable def elR (a : List ℝ) (i : ℤ) : ℝ :=
  if 0 ≤ i then a.getD i.toNat 0 else 0

/-- Raw (unnormalized) cross-correlation of two zero-padded signals at an
integer lag `L`: the value the full scipy correlation takes at offset
`L` from the zero-lag position. -/
noncomputable def rawcc (a b : List ℝ) (L : ℤ) : ℝ :=
  ∑ m ∈ Finset.range a.length, elR a (m : ℤ) * elR b ((m : ℤ) - L)

/-- Sum of squares of a real signal, for the naive normalization. -/
noncomputable def sumsq (a : List ℝ) : ℝ := (a.map (fun x => x ^ 2)).sum

/-- The notebook's `correlate(a, b, shift)` from
`obspy.signal.cross_correlation` with its defaults (`demean=True`,
`normalize="naive"`): demean both signals, correlate over the symmetric
lag window of `2 * shift + 1` lags, and divide by the geometric mean of
the demeaned energies, returning zeros when that norm vanishes (obspy's
small-norm guard, exact here). -/
noncomputable def obspy_correlate (a b : List ℝ) (shift : ℕ) : List ℝ :=
  (List.range (2 * shift + 1)).map (fun k : ℕ =>
    if Real.sqrt (sumsq (demeanR a) * sumsq (demeanR b)) = 0 then 0
    else rawcc (demeanR a) (demeanR b) ((k : ℤ) - (shift : ℤ)) /
      Real.sqrt (sumsq (demeanR a) * sumsq (demeanR b)))

/-! ## Helper lemmas about the numpy reductions -/

lemma argmaxAux_cases : ∀ (l : List ℚ) (bi i : ℕ) (bv : ℚ),
    argmaxAux l bi bv i = (bi, bv) ∨
      ∃ k, k < l.length ∧ argmaxAux l bi bv i = (i + k, l.getD k 0) := by
  intro l
  induction l with
  | nil => intro bi i bv; left; rfl
  | cons x xs ih =>
      intro bi i bv
      by_cases hx : bv < x
      · rcases ih i (i + 1) x with h | ⟨k, hk, h⟩
        · right
          exact ⟨0, by simp, by simpa [argmaxAux, hx] using h⟩
        · right
          refine ⟨k + 1, by simpa using hk, ?_⟩
          simpa [argmaxAux, hx, Nat.add_assoc, Nat.add_comm 1 k] using h
      · rcases ih bi (i + 1) bv with h | ⟨k, hk, h⟩
        · left; simpa [argmaxAux, hx] using h
        · right
          refine ⟨k + 1, by simpa using hk, ?_⟩
          simpa [argmaxAux, hx, Nat.add_assoc, Nat.add_comm 1 k] using h

lemma argmaxAux_le_val : ∀ (l : List ℚ) (bi i : ℕ) (bv : ℚ), bv ≤ (argmaxAux l bi bv i).2 := by
  intro l
  induction l with
  | nil => intro bi i bv; simp [argmaxAux]
  | cons x xs ih =>
      intro bi i bv
      by_cases hx : bv < x
      · calc bv ≤ x := le_of_lt hx
          _ ≤ (argmaxAux xs i x (i + 1)).2 := ih i (i + 1) x
          _ = (argmaxAux (x :: xs) bi bv i).2 := by simp [argmaxAux, hx]
      · simpa [argmaxAux, hx] using ih bi (i + 1) bv

lemma argmaxAux_ge_all : ∀ (l : List ℚ) (bi i : ℕ) (bv : ℚ) (k : ℕ), k < l.length →
    l.getD k 0 ≤ (argmaxAux l bi bv i).2 := by
  intro l
  induction l with
  | nil => intro bi i bv k hk; simp at hk
  | cons x xs ih =>
      intro bi i bv k hk
      by_cases hx : bv < x
      · cases k with
        | zero => simpa [argmaxAux, hx] using argmaxAux_le_val xs i (i + 1) x
        | succ k =>
            have hk2 : k < xs.length := by simpa using hk
            simpa [argmaxAux, hx] using ih i (i + 1) x k hk2
      · cases k with
        | zero =>
            have hxb : x ≤ bv := le_of_not_lt hx
            calc (x :: xs).getD 0 0 = x := rfl
              _ ≤ bv := hxb
              _ ≤ (argmaxAux xs bi bv (i + 1)).2 := argmaxAux_le_val xs bi (i + 1) bv
              _ = (argmaxAux (x :: xs) bi bv i).2 := by simp [argmaxAux, hx]
        | succ k =>
            have hk2 : k < xs.length := by simpa using hk
            simpa [argmaxAux, hx] using ih bi (i + 1) bv k hk2

lemma np_argmax_spec (l : List ℚ) (j : ℕ) (h : np_argmax l = some j) :
    j < l.length ∧ ∀ k, k < l.length → l.getD k 0 ≤ l.getD j 0 := by
  cases l with
  | nil => simp [np_argmax] at h
  | cons x xs =>
      have hj : j = (argmaxAux xs 0 x 1).1 := by
        simpa [np_argmax] using h.symm
      have hval : (x :: xs).getD j 0 = (argmaxAux xs 0 x 1).2 ∧ j < (x :: xs).length := by
        rcases argmaxAux_cases xs 0 1 x with hc | ⟨k, hk, hc⟩
        · constructor
          · rw [hj, hc]; simp
          · rw [hj, hc]; simp
        · constructor
          · rw [hj, hc]; simp [Nat.add_comm 1 k]
          · rw [hj, hc]; simp only [List.length_cons]; omega
      refine ⟨hval.2, ?_⟩
      intro k hk
      rw [hval.1]
      cases k with
      | zero => simpa using argmaxAux_le_val xs 0 1 x
      | succ k =>
          have hk2 : k < xs.length := by simpa using hk
          simpa using argmaxAux_ge_all xs 0 1 x k hk2

lemma argminAux_idx : ∀ (l : List ℚ) (bi i : ℕ) (bv : ℚ),
    (argminAux l bi bv i).1 = bi ∨ ∃ k, k < l.length ∧ (argminAux l bi bv i).1 = i + k := by
  intro l
  induction l with
  | nil => intro bi i bv; left; rfl
  | cons x xs ih =>
      intro bi i bv
      by_cases hx : x < bv
      · rcases ih i (i + 1) x with h | ⟨k, hk, h⟩
        · right; exact ⟨0, by simp, by simpa [argminAux, hx] using h⟩
        · right
          refine ⟨k + 1, by simpa using hk, ?_⟩
          simpa [argminAux, hx, Nat.add_assoc, Nat.add_comm 1 k] using h
      · rcases ih bi (i + 1) bv with h | ⟨k, hk, h⟩
        · left; simpa [argminAux, hx] using h
        · right
          refine ⟨k + 1, by simpa using hk, ?_⟩
          simpa [argminAux, hx, Nat.add_assoc, Nat.add_comm 1 k] using h

lemma np_argmin_lt_length (l : List ℚ) (j : ℕ) (h : np_argmin l = some j) : j < l.length := by
  cases l with
  | nil => simp [np_argmin] at h
  | cons x xs =>
      have hj : j = (argminAux xs 0 x 1).1 := by
        simpa [np_argmin] using h.symm
      rcases argminAux_idx xs 0 1 x with hc | ⟨k, hk, hc⟩
      · rw [hj, hc]; simp
      · rw [hj, hc]; simp only [List.length_cons]; omega

lemma idOfNearest_lt_length (ti : List ℚ) (t : ℚ) (j : ℕ) (h : idOfNearest ti t = some j) :
    j < ti.length := by
  have := np_argmin_lt_length (ti.map (fun x => |x - t|)) j h
  simpa using this

lemma mem_atshift_realistic_gt (atshift : List ℚ) (D Vmax : ℚ) :
    ∀ l ∈ atshift_realistic atshift D Vmax, D / Vmax < l := by
  intro l hl
  simp only [atshift_realistic, id_realistic, List.mem_map, List.mem_filter,
    List.mem_range, decide_eq_true_eq] at hl
  rcases hl with ⟨i, ⟨hi, hgt⟩, rfl⟩
  exact hgt

lemma mem_of_gt_atshift_realistic (atshift : List ℚ) (D Vmax : ℚ) :
    ∀ l ∈ atshift, D / Vmax < l → l ∈ atshift_realistic atshift D Vmax := by
  intro l hl hgt
  rcases List.mem_iff_getElem.1 hl with ⟨i, hi, rfl⟩
  simp only [atshift_realistic, id_realistic, List.mem_map, List.mem_filter,
    List.mem_range, decide_eq_true_eq]
  exact ⟨i, ⟨hi, by rwa [List.getD_eq_getElem _ _ hi]⟩, by rw [List.getD_eq_getElem _ _ hi]⟩

/-- C3: the lag-filtering step `id_realistic = np.where(atshift > D / Vmax)`
keeps exactly the lags strictly greater than `D / Vmax` — every survivor
exceeds the bound, every lag exceeding the bound survives, no lag at or
below the bound survives — and the surviving lags are converted
elementwise to phase velocities `D / lag`. -/
theorem lag_filter_keeps_exactly_lags_above_threshold (atshift : List ℚ) (D Vmax : ℚ)
    (hD : 0 < D) (hV : 0 < Vmax) :
    (∀ l ∈ atshift_realistic atshift D Vmax, D / Vmax < l) ∧
    (∀ l ∈ atshift, D / Vmax < l → l ∈ atshift_realistic atshift D Vmax) ∧
    (∀ l ∈ atshift, l ≤ D / Vmax → l ∉ atshift_realistic atshift D Vmax) ∧
    V_phase atshift D Vmax = (atshift_realistic atshift D Vmax).map (fun l => D / l) := by
  refine ⟨mem_atshift_realistic_gt atshift D Vmax,
    mem_of_gt_atshift_realistic atshift D Vmax, ?_, rfl⟩
  intro l _ hle hmem
  exact absurd (mem_atshift_realistic_gt atshift D Vmax l hmem) (not_lt.2 hle)

theorem lag_filter_keeps_exactly_lags_above_threshold_witness :
    atshift_realistic [-3, 1, 2] 7 7 = [2] ∧
    ((7 : ℚ) / 7 < 2 → (2 : ℚ) ∈ atshift_realistic [-3, 1, 2] 7 7) ∧
    ((1 : ℚ) ∈ ([-3, 1, 2] : List ℚ)) ∧ ((1 : ℚ) ∉ atshift_realistic [-3, 1, 2] 7 7) := by
  have h := lag_filter_keeps_exactly_lags_above_threshold [-3, 1, 2] 7 7
    (by norm_num) (by norm_num)
  refine ⟨?_, fun hgt => h.2.1 2 (by norm_num) hgt, by norm_num, ?_⟩
  · norm_num [atshift_realistic, id_realistic, List.range_succ]
  · exact h.2.2.1 1 (by norm_num) (by norm_num)

/-- C8: with positive inter-station distance and positive maximum
velocity, every lag surviving the filter is strictly positive — so the
conversion to phase velocity never divides by zero — and every resulting
phase velocity lies strictly between `0` and `Vmax`. -/
theorem phase_velocity_well_defined_and_bounded (atshift : List ℚ) (D Vmax : ℚ)
    (hD : 0 < D) (hV : 0 < Vmax) :
    (∀ l ∈ atshift_realistic atshift D Vmax, 0 < l) ∧
    (∀ v ∈ V_phase atshift D Vmax, 0 < v ∧ v < Vmax) := by
  have hpos : ∀ l ∈ atshift_realistic atshift D Vmax, 0 < l := by
    intro l hl
    exact lt_trans (div_pos hD hV) (mem_atshift_realistic_gt atshift D Vmax l hl)
  refine ⟨hpos, ?_⟩
  intro v hv
  simp only [V_phase, List.mem_map] at hv
  rcases hv with ⟨l, hl, rfl⟩
  have hlpos : 0 < l := hpos l hl
  have hgt : D / Vmax < l := mem_atshift_realistic_gt atshift D Vmax l hl
  refine ⟨div_pos hD hlpos, ?_⟩
  rw [div_lt_iff hlpos]
  have hD_lt : D < l * Vmax := (div_lt_iff hV).1 hgt
  linarith [hD_lt]

theorem phase_velocity_well_defined_and_bounded_witness :
    ((2 : ℚ) ∈ atshift_realistic [-3, 1, 2] 7 7 → (0 : ℚ) < 2) ∧
    ((7 : ℚ) / 2 ∈ V_phase [-3, 1, 2] 7 7) ∧ (0 : ℚ) < 7 / 2 ∧ (7 : ℚ) / 2 < 7 := by
  have h := phase_velocity_well_defined_and_bounded [-3, 1, 2] 7 7 (by norm_num) (by norm_num)
  have hmem : (7 : ℚ) / 2 ∈ V_phase [-3, 1, 2] 7 7 := by
    norm_num [V_phase, atshift_realistic, id_realistic, List.range_succ]
  exact ⟨fun hm => h.1 2 hm, hmem, h.2 (7 / 2) hmem⟩

/-- C2: the group velocity computed by the notebook at each period is
exactly the source-to-receiver distance divided by the picked arrival
time at that period, and multiplying that velocity back by the picked
time recovers the distance exactly. -/
theorem group_velocity_div_roundtrip (d : ℚ) (picked : List ℚ)
    (hd : 0 < d) (hp : ∀ t ∈ picked, 0 < t) :
    group_velocity_from_wavelet d picked = picked.map (fun t => d / t) ∧
    ∀ t ∈ picked, d / t * t = d := by
  refine ⟨rfl, ?_⟩
  intro t ht
  exact div_mul_cancel₀ d (ne_of_gt (hp t ht))

theorem group_velocity_div_roundtrip_witness :
    group_velocity_from_wavelet 100 [4, 5] = [25, 20] ∧ (100 : ℚ) / 4 * 4 = 100 := by
  have h := group_velocity_div_roundtrip 100 [4, 5] (by norm_num) (by intro t ht; fin_cases ht <;> norm_num)
  constructor
  · rw [h.1]; norm_num
  · exact h.2 4 (by norm_num)

lemma sum_sq_dev_eq_zero_iff (m : ℚ) :
    ∀ l : List ℚ, ((l.map (fun x => (x - m) ^ 2)).sum = 0 ↔ ∀ x ∈ l, x = m) := by
  intro l
  induction l with
  | nil => simp
  | cons a xs ih =>
      simp only [List.map_cons, List.sum_cons, List.mem_cons]
      have h1 : (0 : ℚ) ≤ (a - m) ^ 2 := sq_nonneg _
      have h2 : (0 : ℚ) ≤ (xs.map (fun x => (x - m) ^ 2)).sum := by
        apply List.sum_nonneg
        intro y hy
        rcases List.mem_map.1 hy with ⟨x, _, rfl⟩
        exact sq_nonneg _
      rw [add_eq_zero_iff_of_nonneg h1 h2]
      constructor
      · rintro ⟨ha, hrest⟩
        have ha2 : a = m := by
          have := pow_eq_zero_iff (n := 2) (by norm_num) |>.1 ha
          linarith [this]
        exact fun x hx => hx.elim (fun h => h ▸ ha2) (fun h => (ih.1 hrest) x h)
      · intro hall
        refine ⟨?_, ih.2 (fun x hx => hall x (Or.inr hx))⟩
        have : a = m := hall a (Or.inl rfl)
        simp [this]

/-- C9: the normalization step of `compute_wavelet_power_spectrum`
divides the trace by its standard deviation with no guard, so it is a
genuine division exactly when the trace is non-constant: the standard
deviation vanishes precisely when every sample equals the mean, and for
such a constant trace the normalization literally divides every sample by
zero (yielding the exact-arithmetic junk value `0` for every entry). -/
theorem std_normalization_unguarded_div_by_zero_on_constant (l : List ℚ) (hne : l ≠ []) :
    (np_std l = 0 ↔ ∀ x ∈ l, x = np_mean l) ∧
    ((∀ x ∈ l, x = np_mean l) →
      dat_norm l = l.map (fun x => x / 0) ∧ ∀ y ∈ dat_norm l, y = 0) := by
  have hlen : (l.length : ℚ) ≠ 0 := by
    have : 0 < l.length := List.length_pos.2 hne
    exact_mod_cast this.ne'
  have hiff : np_std l = 0 ↔ ∀ x ∈ l, x = np_mean l := by
    unfold np_std np_var
    rw [div_eq_zero_iff]
    constructor
    · rintro (hsum | hzero)
      · exact (sum_sq_dev_eq_zero_iff (np_mean l) l).1 hsum
      · exact absurd hzero hlen
    · intro hc
      exact Or.inl ((sum_sq_dev_eq_zero_iff (np_mean l) l).2 hc)
  refine ⟨hiff, ?_⟩
  intro hc
  have h0 : np_std l = 0 := hiff.2 hc
  constructor
  · simp only [dat_norm, h0]
  · intro y hy
    rcases List.mem_map.1 hy with ⟨x, _, rfl⟩
    rw [h0, div_zero]

theorem std_normalization_unguarded_div_by_zero_on_constant_witness :
    (np_std [2, 2] = 0 ↔ ∀ x ∈ ([2, 2] : List ℚ), x = np_mean [2, 2]) ∧
    dat_norm [2, 2] = ([2, 2] : List ℚ).map (fun x => x / 0) ∧ np_std [2, 2] = 0 := by
  have h := std_normalization_unguarded_div_by_zero_on_constant [2, 2] (by simp)
  have hconst : ∀ x ∈ ([2, 2] : List ℚ), x = np_mean [2, 2] := by
    intro x hx
    fin_cases hx <;> norm_num [np_mean]
  exact ⟨h.1, (h.2 hconst).1, h.1.2 hconst⟩

lemma zipWith_rowmap_length (g : ℚ → ℚ → ℚ) :
    ∀ (xs : List ℚ) (ys : List (List ℚ)) (row : List ℚ),
      row ∈ List.zipWith (fun s r => r.map (g s)) xs ys → ∃ r ∈ ys, row.length = r.length := by
  intro xs
  induction xs with
  | nil => intro ys row h; simp at h
  | cons x xs ih =>
      intro ys row h
      cases ys with
      | nil => simp at h
      | cons y ys =>
          rcases List.mem_cons.1 h with hrow | hrow
          · exact ⟨y, List.mem_cons_self y ys, by rw [hrow, List.length_map]⟩
          · rcases ih ys row hrow with ⟨r, hr, hlen⟩
            exact ⟨r, List.mem_cons_of_mem y hr, hlen⟩

/-- C4: for every input trace, the power spectrum returned by
`compute_wavelet_power_spectrum` has `8 / (1/12) + 1 = 97` rows (the
period axis, like the returned period array), and every row has exactly
one entry per input sample (the time axis equals the trace's sample
count). -/
theorem power_spectrum_shape_97_by_npts (mydata : List ℚ) (dt : ℚ) :
    (compute_wavelet_power_spectrum mydata dt).1.length = 97 ∧
    (compute_wavelet_power_spectrum mydata dt).2.1.length = 97 ∧
    ∀ row ∈ (compute_wavelet_power_spectrum mydata dt).2.1, row.length = mydata.length := by
  have hfloor : (Int.floor ((8 : ℚ) / (1 / 12))).toNat + 1 = 97 := by
    norm_num
    rfl
  refine ⟨?_, ?_, ?_⟩
  · simp only [compute_wavelet_power_spectrum, pycwt_cwt, List.length_map, List.length_range]
    exact hfloor
  · simp only [compute_wavelet_power_spectrum, pycwt_cwt, List.length_zipWith,
      List.length_map, List.length_range, min_self]
    exact hfloor
  · intro row hrow
    simp only [compute_wavelet_power_spectrum, pycwt_cwt] at hrow
    rcases zipWith_rowmap_length _ _ _ _ hrow with ⟨r, hr, hlen⟩
    rcases List.mem_map.1 hr with ⟨w, hw, rfl⟩
    rcases List.mem_map.1 hw with ⟨s, _, rfl⟩
    simp [hlen, dat_norm]

/-- C6: both filtering loop bodies — the band-limited envelope picker and
the phase-velocity estimator — band-pass a copy of the stream, so
whenever a body runs to completion the environment it returns carries the
original traces unchanged: same sample values, same sample interval, same
length. -/
theorem filtering_preserves_original_traces (env : Env) (ti : List ℚ) (T x_filter : ℚ)
    (nsamples : ℕ) :
    (∀ r, envelopePickStep env ti T = Except.ok r →
      r.1.st.data = env.st.data ∧ r.1.st.delta = env.st.delta ∧
      r.1.st.data.length = env.st.data.length) ∧
    (∀ r, phaseCorrStep env T x_filter nsamples = Except.ok r →
      (r.1.st.data = env.st.data ∧ r.1.st.delta = env.st.delta ∧
        r.1.st.data.length = env.st.data.length) ∧
      (r.1.st2.data = env.st2.data ∧ r.1.st2.delta = env.st2.delta ∧
        r.1.st2.data.length = env.st2.data.length)) := by
  constructor
  · intro r hr
    unfold envelopePickStep at hr
    cases hb : bandpassFilter (Trace.copy env.st) (0.85 / T) (1.15 / T) with
    | error e => rw [hb] at hr; exact absurd hr (by simp)
    | ok st_f =>
        rw [hb] at hr
        have : r.1 = env := by
          have := congrArg (fun x => match x with
            | Except.ok (p : Env × ℚ) => p.1
            | Except.error _ => env) hr
          simpa using this.symm
        simp [this]
  · intro r hr
    unfold phaseCorrStep at hr
    cases hb : bandpassFilter (Trace.copy env.st) ((1 - x_filter) / T) ((1 + x_filter) / T) with
    | error e => rw [hb] at hr; exact absurd hr (by simp)
    | ok f1 =>
        cases hb2 : bandpassFilter (Trace.copy env.st2) ((1 - x_filter) / T)
            ((1 + x_filter) / T) with
        | error e => rw [hb, hb2] at hr; exact absurd hr (by simp)
        | ok f2 =>
            rw [hb, hb2] at hr
            have : r.1 = env := by
              have := congrArg (fun x => match x with
                | Except.ok (p : Env × List ℚ) => p.1
                | Except.error _ => env) hr
              simpa using this.symm
            simp [this]

lemma bandpassFilter_invalid (tr : Trace) (fmin fmax : ℚ) (h : 1 / (2 * tr.delta) < fmax) :
    bandpassFilter tr fmin fmax = Except.error BandError.InvalidBandError := by
  unfold bandpassFilter
  rw [if_pos h]

lemma bandpassFilter_valid (tr : Trace) (fmin fmax : ℚ) (h : ¬ 1 / (2 * tr.delta) < fmax) :
    bandpassFilter tr fmin fmax = Except.ok ⟨bandpassData tr.data fmin fmax, tr.delta⟩ := by
  unfold bandpassFilter
  rw [if_neg h]

lemma envelopePickStep_invalid (env : Env) (ti : List ℚ) (T : ℚ)
    (h : 1 / (2 * env.st.delta) < 1.15 / T) :
    envelopePickStep env ti T = Except.error BandError.InvalidBandError := by
  unfold envelopePickStep
  rw [bandpassFilter_invalid _ _ _ (by simpa [Trace.copy] using h)]

lemma envelopePickStep_valid_eq (env : Env) (ti : List ℚ) (T : ℚ)
    (h : ¬ 1 / (2 * env.st.delta) < 1.15 / T) :
    envelopePickStep env ti T = Except.ok (env, ti.getD ((np_argmax (np_envelope
      (bandpassData env.st.data (0.85 / T) (1.15 / T)))).getD 0) 0) := by
  unfold envelopePickStep
  rw [bandpassFilter_valid _ _ _ (by simpa [Trace.copy] using h)]
  rfl

lemma phaseCorrStep_valid_eq (env : Env) (T xf : ℚ) (ns : ℕ)
    (h : ¬ 1 / (2 * env.st.delta) < (1 + xf) / T)
    (h2 : ¬ 1 / (2 * env.st2.delta) < (1 + xf) / T) :
    phaseCorrStep env T xf ns = Except.ok (env, ccStandIn
      (bandpassData env.st2.data ((1 - xf) / T) ((1 + xf) / T))
      (bandpassData env.st.data ((1 - xf) / T) ((1 + xf) / T)) ns) := by
  unfold phaseCorrStep
  rw [bandpassFilter_valid _ _ _ (by simpa [Trace.copy] using h),
    bandpassFilter_valid _ _ _ (by simpa [Trace.copy] using h2)]
  rfl

theorem filtering_preserves_original_traces_witness :
    (((⟨⟨[1], 1⟩, ⟨[2], 1⟩⟩, (5 : ℚ)) : Env × ℚ).1.st.data =
        (⟨⟨[1], 1⟩, ⟨[2], 1⟩⟩ : Env).st.data ∧
      ((⟨⟨[1], 1⟩, ⟨[2], 1⟩⟩, (5 : ℚ)) : Env × ℚ).1.st.delta =
        (⟨⟨[1], 1⟩, ⟨[2], 1⟩⟩ : Env).st.delta ∧
      ((⟨⟨[1], 1⟩, ⟨[2], 1⟩⟩, (5 : ℚ)) : Env × ℚ).1.st.data.length =
        (⟨⟨[1], 1⟩, ⟨[2], 1⟩⟩ : Env).st.data.length) ∧
    ((⟨⟨[1], 1⟩, ⟨[2], 1⟩⟩, [(1 : ℚ) / 200]) : Env × List ℚ).1.st2.data =
        (⟨⟨[1], 1⟩, ⟨[2], 1⟩⟩ : Env).st2.data := by
  have hmain := filtering_preserves_original_traces ⟨⟨[1], 1⟩, ⟨[2], 1⟩⟩ [5] 10 0.25 0
  have hpick : ([5] : List ℚ).getD ((np_argmax (np_envelope
      (bandpassData [1] (0.85 / 10) (1.15 / 10)))).getD 0) 0 = 5 := by
    norm_num [bandpassData, np_envelope, np_argmax, argmaxAux]
  have hstep : envelopePickStep ⟨⟨[1], 1⟩, ⟨[2], 1⟩⟩ [5] 10 =
      Except.ok (⟨⟨[1], 1⟩, ⟨[2], 1⟩⟩, 5) := by
    rw [envelopePickStep_valid_eq ⟨⟨[1], 1⟩, ⟨[2], 1⟩⟩ [5] 10 (by norm_num), hpick]
  have hcc : ccStandIn (bandpassData [2] ((1 - 0.25) / 10) ((1 + 0.25) / 10))
      (bandpassData [1] ((1 - 0.25) / 10) ((1 + 0.25) / 10)) 0 = [1 / 200] := by
    norm_num [ccStandIn, bandpassData, List.range_succ]
  have hstep2 : phaseCorrStep ⟨⟨[1], 1⟩, ⟨[2], 1⟩⟩ 10 0.25 0 =
      Except.ok (⟨⟨[1], 1⟩, ⟨[2], 1⟩⟩, [1 / 200]) := by
    rw [phaseCorrStep_valid_eq ⟨⟨[1], 1⟩, ⟨[2], 1⟩⟩ 10 0.25 0 (by norm_num) (by norm_num), hcc]
  exact ⟨hmain.1 _ hstep, ((hmain.2 _ hstep2).2).1⟩

/-- C5 counterexample: in the notebook's loop a period whose band exceeds
the Nyquist frequency is not skipped — the filter failure propagates and
the whole run produces no picks at all.  Here the second period (2 s,
upper corner 0.575 Hz against a 0.5 Hz Nyquist) kills the run even though
the first period (10 s) is valid and had already produced a pick. -/
theorem bandpass_loop_fatal_on_invalid_band :
    envelopeLoop ⟨⟨[1], 1⟩, ⟨[2], 1⟩⟩ [0] [10, 2] =
      Except.error BandError.InvalidBandError := by
  have hpick : ([0] : List ℚ).getD ((np_argmax (np_envelope
      (bandpassData [1] (0.85 / 10) (1.15 / 10)))).getD 0) 0 = 0 := by
    norm_num [bandpassData, np_envelope, np_argmax, argmaxAux]
  have h1 : envelopePickStep ⟨⟨[1], 1⟩, ⟨[2], 1⟩⟩ [0] 10 =
      Except.ok (⟨⟨[1], 1⟩, ⟨[2], 1⟩⟩, 0) := by
    rw [envelopePickStep_valid_eq ⟨⟨[1], 1⟩, ⟨[2], 1⟩⟩ [0] 10 (by norm_num), hpick]
  have h2 : envelopePickStep ⟨⟨[1], 1⟩, ⟨[2], 1⟩⟩ [0] 2 =
      Except.error BandError.InvalidBandError :=
    envelopePickStep_invalid _ _ _ (by norm_num)
  simp only [envelopeLoop, h1, h2]

/-- C5 (amended): when a period's band exceeds the Nyquist frequency the
filtering step fails with an `InvalidBandError`, and the failure is fatal
to the run: the loop stops at the offending period, the remaining periods
are not processed, and no picks are returned. -/
theorem bandpass_loop_error_propagates (env : Env) (ti : List ℚ) (Ts1 Ts2 : List ℚ) (Tbad : ℚ)
    (hgood : ∀ T ∈ Ts1, ¬ (1 / (2 * env.st.delta) < 1.15 / T))
    (hbad : 1 / (2 * env.st.delta) < 1.15 / Tbad) :
    envelopeLoop env ti (Ts1 ++ Tbad :: Ts2) = Except.error BandError.InvalidBandError := by
  induction Ts1 with
  | nil =>
      rw [List.nil_append]
      simp only [envelopeLoop, envelopePickStep_invalid env ti Tbad hbad]
  | cons T Ts1 ih =>
      have ih2 := ih (fun T2 h2 => hgood T2 (List.mem_cons_of_mem T h2))
      rw [List.cons_append]
      simp only [envelopeLoop,
        envelopePickStep_valid_eq env ti T (hgood T (List.mem_cons_self T Ts1)), ih2]

theorem bandpass_loop_error_propagates_witness :
    envelopeLoop ⟨⟨[5, 1], 2⟩, ⟨[0], 2⟩⟩ [0, 2] ([20, 30] ++ 3 :: []) =
      Except.error BandError.InvalidBandError :=
  bandpass_loop_error_propagates ⟨⟨[5, 1], 2⟩, ⟨[0], 2⟩⟩ [0, 2] [20, 30] [] 3
    (by intro T hT; fin_cases hT <;> norm_num) (by norm_num)

lemma npslice_length (row : List ℚ) (a b : ℕ) :
    (npslice row a b).length = min (b - a) (row.length - a) := by
  simp [npslice]

lemma npslice_getD (row : List ℚ) (a b k : ℕ) (hk : k < (npslice row a b).length) :
    (npslice row a b).getD k 0 = row.getD (a + k) 0 := by
  have hmin : k < min (b - a) (row.length - a) := by
    rw [← npslice_length row a b]; exact hk
  have h2 : a + k < row.length := by omega
  rw [List.getD_eq_getElem _ _ hk, List.getD_eq_getElem _ _ h2]
  unfold npslice
  rw [List.getElem_take, List.getElem_drop]

lemma getD_map_range (n : ℕ) (f : ℕ → ℚ) (i : ℕ) (hi : i < n) :
    ((List.range n).map f).getD i 0 = f i := by
  have hlen : i < ((List.range n).map f).length := by simpa using hi
  rw [List.getD_eq_getElem _ _ hlen]
  simp

lemma getD_map_add (js : List ℕ) (c i : ℕ) (hi : i < js.length) :
    (js.map (fun j => j + c)).getD i 0 = js.getD i 0 + c := by
  have hlen : i < (js.map (fun j => j + c)).length := by simpa using hi
  rw [List.getD_eq_getElem _ _ hlen, List.getD_eq_getElem _ _ hi]
  simp

lemma mapM_option_spec (f : List ℚ → Option ℕ) :
    ∀ (rows : List (List ℚ)) (js : List ℕ), rows.mapM f = some js →
      js.length = rows.length ∧
      ∀ i, i < rows.length → f (rows.getD i []) = some (js.getD i 0) := by
  intro rows
  induction rows with
  | nil =>
      intro js h
      simp only [List.mapM_nil, pure, Option.some.injEq] at h
      subst h
      exact ⟨rfl, fun i hi => absurd hi (by simp)⟩
  | cons r rows ih =>
      intro js h
      rw [List.mapM_cons] at h
      cases hf : f r with
      | none => rw [hf] at h; simp at h
      | some j =>
          rw [hf] at h
          cases hm : rows.mapM f with
          | none => rw [hm] at h; simp at h
          | some js2 =>
              rw [hm] at h
              simp only [bind, Option.some_bind, pure, Option.some.injEq] at h
              subst h
              obtain ⟨hlen, hall⟩ := ih js2 hm
              refine ⟨by simp [hlen], ?_⟩
              intro i hi
              cases i with
              | zero => simpa using hf
              | succ i =>
                  have hi2 : i < rows.length := by simpa using hi
                  simpa using hall i hi2

lemma pickArrivalWavelet_spec (ti : List ℚ) (power : List (List ℚ)) (period : List ℚ)
    (tmin tmax : ℚ) (idtmin idtmax : ℕ) (picks : List ℚ)
    (hmin : idOfNearest ti tmin = some idtmin)
    (hmax : idOfNearest ti tmax = some idtmax)
    (hres : pickArrivalWavelet ti power period tmin tmax = some picks) :
    picks.length = period.length ∧ power.length ≤ period.length ∧
    ∀ i, i < power.length → ∃ j, idtmin ≤ j ∧ j < idtmax ∧ j < ti.length ∧
      picks.getD i 0 = ti.getD j 0 ∧
      ∀ k, idtmin ≤ k → k < idtmax → k < (power.getD i []).length →
        (power.getD i []).getD k 0 ≤ (power.getD i []).getD j 0 := by
  unfold pickArrivalWavelet at hres
  simp only [hmin, hmax] at hres
  cases hmapM : power.mapM (fun row => np_argmax (npslice row idtmin idtmax)) with
  | none => rw [hmapM] at hres; exact absurd hres (by simp)
  | some js =>
      simp only [hmapM] at hres
      by_cases hlt : period.length < power.length
      · rw [if_pos hlt] at hres; exact absurd hres (by simp)
      · rw [if_neg hlt] at hres
        have hpicks : picks = (List.range period.length).map (fun i =>
            if i < (js.map (fun j => j + idtmin)).length then
              ti.getD ((js.map (fun j => j + idtmin)).getD i 0) 0 else 0) :=
          (Option.some.inj hres).symm
        obtain ⟨hjslen, hjsall⟩ := mapM_option_spec _ power js hmapM
        have hmaxlen : idtmax < ti.length := idOfNearest_lt_length ti tmax idtmax hmax
        refine ⟨by simp [hpicks], le_of_not_lt hlt, ?_⟩
        intro i hi
        have hip : i < period.length := lt_of_lt_of_le hi (le_of_not_lt hlt)
        have hargmax := hjsall i hi
        obtain ⟨hjlt, hjmax⟩ := np_argmax_spec _ _ hargmax
        have hslen : (npslice (power.getD i []) idtmin idtmax).length =
            min (idtmax - idtmin) ((power.getD i []).length - idtmin) :=
          npslice_length (power.getD i []) idtmin idtmax
        have hjlt2 : js.getD i 0 < min (idtmax - idtmin) ((power.getD i []).length - idtmin) := by
          rw [← hslen]; exact hjlt
        have hij : i < js.length := by omega
        refine ⟨js.getD i 0 + idtmin, by omega, by omega, by omega, ?_, ?_⟩
        · rw [hpicks, getD_map_range _ _ _ hip, if_pos (by simpa [hjslen] using hi),
            getD_map_add _ _ _ hij]
        · intro k hk1 hk2 hk3
          have hk4 : k - idtmin < (npslice (power.getD i []) idtmin idtmax).length := by
            rw [hslen]; omega
          have hval1 : (npslice (power.getD i []) idtmin idtmax).getD (k - idtmin) 0 =
              (power.getD i []).getD k 0 := by
            rw [npslice_getD _ _ _ _ hk4]
            congr 1
            omega
          have hval2 : (npslice (power.getD i []) idtmin idtmax).getD (js.getD i 0) 0 =
              (power.getD i []).getD (js.getD i 0 + idtmin) 0 := by
            rw [npslice_getD _ _ _ _ hjlt]
            congr 1
            omega
          rw [← hval1, ← hval2]
          exact hjmax _ hk4

lemma sorted_getD_mono (l : List ℚ) (hs : List.Sorted (fun a b => a ≤ b) l) (i j : ℕ)
    (hij : i ≤ j) (hj : j < l.length) : l.getD i 0 ≤ l.getD j 0 := by
  have hi : i < l.length := lt_of_le_of_lt hij hj
  rw [List.getD_eq_getElem _ _ hi, List.getD_eq_getElem _ _ hj]
  rcases eq_or_lt_of_le hij with rfl | hlt
  · exact le_refl _
  · exact List.pairwise_iff_get.1 hs ⟨i, hi⟩ ⟨j, hj⟩ hlt

/-- C10 (amended): provided the period array is no longer than the number
of rows of the power spectrum (in every call of the notebook both carry
one entry per scale), each picked time returned by `pickArrivalWavelet`
is an actual sample time of the input time axis: it equals `ti[j]` for
some index `j` with `idtmin ≤ j < idtmax`, where `idtmin` and `idtmax`
index the samples of `ti` nearest to `tmin` and `tmax`. -/
theorem pickArrivalWavelet_picks_are_sample_times (ti : List ℚ) (power : List (List ℚ))
    (period : List ℚ) (tmin tmax : ℚ) (idtmin idtmax : ℕ) (picks : List ℚ)
    (hmin : idOfNearest ti tmin = some idtmin)
    (hmax : idOfNearest ti tmax = some idtmax)
    (hlen : period.length ≤ power.length)
    (hres : pickArrivalWavelet ti power period tmin tmax = some picks) :
    ∀ t ∈ picks, ∃ j, idtmin ≤ j ∧ j < idtmax ∧ j < ti.length ∧ t = ti.getD j 0 := by
  obtain ⟨hplen, hle, hspec⟩ :=
    pickArrivalWavelet_spec ti power period tmin tmax idtmin idtmax picks hmin hmax hres
  intro t ht
  rcases List.mem_iff_getElem.1 ht with ⟨i, hi, rfl⟩
  have hi2 : i < power.length := by omega
  obtain ⟨j, h1, h2, h3, h4, _⟩ := hspec i hi2
  exact ⟨j, h1, h2, h3, (List.getD_eq_getElem picks 0 hi).symm.trans h4⟩

/-- C10 counterexample: the output is `np.zeros_like(period)` and the
loop fills only one entry per power row, so with a single-row power
spectrum and two periods the second returned entry is the fill value `0`,
which is not a sample of the time axis at all. -/
theorem pickArrivalWavelet_zero_fill_not_a_sample :
    pickArrivalWavelet [1050, 3000] [[5]] [10, 20] 1050 3000 = some [1050, 0] ∧
    ¬ ∃ j, j < 2 ∧ (0 : ℚ) = [(1050 : ℚ), 3000].getD j 0 := by
  constructor
  · have hmin : idOfNearest [1050, 3000] 1050 = some 0 := by
      norm_num [idOfNearest, np_argmin, argminAux, abs_of_nonneg, abs_of_nonpos]
    have hmax : idOfNearest [1050, 3000] 3000 = some 1 := by
      norm_num [idOfNearest, np_argmin, argminAux, abs_of_nonneg, abs_of_nonpos]
    have hm : ([[(5 : ℚ)]] : List (List ℚ)).mapM
        (fun row => np_argmax (npslice row 0 1)) = some [0] := by
      norm_num [List.mapM, List.mapM.loop, npslice, np_argmax, argmaxAux]
    unfold pickArrivalWavelet
    simp only [hmin, hmax, hm]
    norm_num [List.range_succ]
  · rintro ⟨j, hj, hval⟩
    interval_cases j <;> norm_num at hval

lemma idOfNearest_eval_tmin : idOfNearest [1000, 2000, 3000] 1050 = some 0 := by
  norm_num [idOfNearest, np_argmin, argminAux, abs_of_nonneg, abs_of_nonpos]

lemma idOfNearest_eval_tmax : idOfNearest [1000, 2000, 3000] 3000 = some 2 := by
  norm_num [idOfNearest, np_argmin, argminAux, abs_of_nonneg, abs_of_nonpos]

lemma pickArrivalWavelet_eval_witness_input :
    pickArrivalWavelet [1000, 2000, 3000] [[1, 5, 2]] [7] 1050 3000 = some [2000] := by
  have hm : ([[(1 : ℚ), 5, 2]] : List (List ℚ)).mapM
      (fun row => np_argmax (npslice row 0 2)) = some [1] := by
    norm_num [List.mapM, List.mapM.loop, npslice, np_argmax, argmaxAux]
  unfold pickArrivalWavelet
  simp only [idOfNearest_eval_tmin, idOfNearest_eval_tmax, hm]
  norm_num [List.range_succ]

theorem pickArrivalWavelet_picks_are_sample_times_witness :
    ∃ j, 0 ≤ j ∧ j < 2 ∧ j < 3 ∧ (2000 : ℚ) = [(1000 : ℚ), 2000, 3000].getD j 0 := by
  have h := pickArrivalWavelet_picks_are_sample_times [1000, 2000, 3000] [[1, 5, 2]] [7]
    1050 3000 0 2 [2000] idOfNearest_eval_tmin idOfNearest_eval_tmax (by norm_num)
    pickArrivalWavelet_eval_witness_input
  have h2 := h 2000 (by norm_num)
  simpa using h2

/-- C1 counterexample: with the default window `[1050, 3000]` and time
axis `[0, 1000, 2000, 3000]`, the sample nearest to `tmin = 1050` is
`1000`, so the search window actually used starts before `tmin` and the
returned pick `1000` lies outside the caller-specified window
`[1050, 3000]` (the true maximum inside `[1050, 3000]` is at `2000`). -/
theorem pickArrivalWavelet_pick_outside_caller_window :
    pickArrivalWavelet [0, 1000, 2000, 3000] [[0, 9, 1, 0]] [10] 1050 3000 = some [1000] ∧
    ¬ ((1050 : ℚ) ≤ 1000) := by
  constructor
  · have hmin : idOfNearest [0, 1000, 2000, 3000] 1050 = some 1 := by
      norm_num [idOfNearest, np_argmin, argminAux, abs_of_nonneg, abs_of_nonpos]
    have hmax : idOfNearest [0, 1000, 2000, 3000] 3000 = some 3 := by
      norm_num [idOfNearest, np_argmin, argminAux, abs_of_nonneg, abs_of_nonpos]
    have hm : ([[(0 : ℚ), 9, 1, 0]] : List (List ℚ)).mapM
        (fun row => np_argmax (npslice row 1 3)) = some [0] := by
      norm_num [List.mapM, List.mapM.loop, npslice, np_argmax, argmaxAux]
    unfold pickArrivalWavelet
    simp only [hmin, hmax, hm]
    norm_num [List.range_succ]
  · norm_num

/-- C1 (amended): `pickArrivalWavelet` restricts the search to the
window snapped to the sample grid — the indices `idtmin` and `idtmax` of
the samples nearest to `tmin` and `tmax`, with the right end exclusive —
and, per period, returns the time of maximum power over that sample
window; consequently, for a sorted time axis every pick lies between
`ti[idtmin]` and `ti[idtmax - 1]` (which can lie outside the
caller-specified `[tmin, tmax]`). -/
theorem pickArrivalWavelet_picks_in_nearest_sample_window (ti : List ℚ)
    (power : List (List ℚ)) (period : List ℚ) (tmin tmax : ℚ) (idtmin idtmax : ℕ)
    (picks : List ℚ)
    (hmin : idOfNearest ti tmin = some idtmin)
    (hmax : idOfNearest ti tmax = some idtmax)
    (hsort : List.Sorted (fun a b => a ≤ b) ti)
    (hlen : period.length ≤ power.length)
    (hres : pickArrivalWavelet ti power period tmin tmax = some picks) :
    (∀ i, i < power.length → ∃ j, idtmin ≤ j ∧ j < idtmax ∧
      picks.getD i 0 = ti.getD j 0 ∧
      ∀ k, idtmin ≤ k → k < idtmax → k < (power.getD i []).length →
        (power.getD i []).getD k 0 ≤ (power.getD i []).getD j 0) ∧
    ∀ t ∈ picks, ti.getD idtmin 0 ≤ t ∧ t ≤ ti.getD (idtmax - 1) 0 := by
  obtain ⟨hplen, hle, hspec⟩ :=
    pickArrivalWavelet_spec ti power period tmin tmax idtmin idtmax picks hmin hmax hres
  have hmaxlen : idtmax < ti.length := idOfNearest_lt_length ti tmax idtmax hmax
  constructor
  · intro i hi
    obtain ⟨j, h1, h2, h3, h4, h5⟩ := hspec i hi
    exact ⟨j, h1, h2, h4, h5⟩
  · intro t ht
    rcases List.mem_iff_getElem.1 ht with ⟨i, hi, rfl⟩
    have hi2 : i < power.length := by omega
    obtain ⟨j, h1, h2, h3, h4, _⟩ := hspec i hi2
    rw [(List.getD_eq_getElem picks 0 hi).symm.trans h4]
    constructor
    · exact sorted_getD_mono ti hsort idtmin j h1 h3
    · exact sorted_getD_mono ti hsort j (idtmax - 1) (by omega) (by omega)

theorem pickArrivalWavelet_picks_in_nearest_sample_window_witness :
    [(1000 : ℚ), 2000, 3000].getD 0 0 ≤ 2000 ∧
    (2000 : ℚ) ≤ [(1000 : ℚ), 2000, 3000].getD (2 - 1) 0 := by
  have h := pickArrivalWavelet_picks_in_nearest_sample_window [1000, 2000, 3000]
    [[1, 5, 2]] [7] 1050 3000 0 2 [2000] idOfNearest_eval_tmin idOfNearest_eval_tmax
    (by norm_num [List.sorted_cons]) (by norm_num) pickArrivalWavelet_eval_witness_input
  exact h.2 2000 (by norm_num)

lemma elR_eq_zero (a : List ℝ) (i : ℤ) (h : i < 0 ∨ (a.length : ℤ) ≤ i) : elR a i = 0 := by
  unfold elR
  rcases h with h | h
  · rw [if_neg (by omega)]
  · by_cases h0 : 0 ≤ i
    · rw [if_pos h0]
      apply List.getD_eq_default
      omega
    · rw [if_neg h0]

lemma sum_el_mul (a : List ℝ) (g : ℤ → ℝ) (s : Finset ℤ)
    (hs : ∀ m : ℕ, m < a.length → (m : ℤ) ∈ s) :
    ∑ i ∈ s, elR a i * g i = ∑ m ∈ Finset.range a.length, elR a (m : ℤ) * g (m : ℤ) := by
  classical
  have hsub : (Finset.range a.length).map (Nat.castEmbedding : ℕ ↪ ℤ) ⊆ s := by
    intro i hi
    simp only [Finset.mem_map, Finset.mem_range, Nat.castEmbedding_apply] at hi
    rcases hi with ⟨m, hm, rfl⟩
    exact hs m hm
  have hzero : ∀ i ∈ s, i ∉ (Finset.range a.length).map (Nat.castEmbedding : ℕ ↪ ℤ) →
      elR a i * g i = 0 := by
    intro i _ hnot
    have hrange : i < 0 ∨ (a.length : ℤ) ≤ i := by
      by_contra hcon
      push_neg at hcon
      apply hnot
      simp only [Finset.mem_map, Finset.mem_range, Nat.castEmbedding_apply]
      exact ⟨i.toNat, by omega, by omega⟩
    rw [elR_eq_zero a i hrange, zero_mul]
  rw [← Finset.sum_subset hsub hzero, Finset.sum_map]
  simp only [Nat.castEmbedding_apply]

lemma rawcc_comm (a b : List ℝ) (L : ℤ) : rawcc a b L = rawcc b a (-L) := by
  classical
  set K : ℤ := (a.length : ℤ) + (b.length : ℤ) + L.natAbs with hK
  have h1 : rawcc a b L = ∑ i ∈ Finset.Icc (-K) K, elR a i * elR b (i - L) := by
    unfold rawcc
    refine (sum_el_mul a (fun i => elR b (i - L)) (Finset.Icc (-K) K) ?_).symm
    intro m hm
    simp only [Finset.mem_Icc]
    omega
  have h2 : rawcc b a (-L) = ∑ i ∈ Finset.Icc (-K - L) (K - L), elR b i * elR a (i + L) := by
    unfold rawcc
    have hx := (sum_el_mul b (fun i => elR a (i - (-L))) (Finset.Icc (-K - L) (K - L)) (by
      intro m hm
      simp only [Finset.mem_Icc]
      omega)).symm
    simp only [sub_neg_eq_add] at hx ⊢
    exact hx
  have h3 : ∑ i ∈ Finset.Icc (-K - L) (K - L), elR b i * elR a (i + L) =
      ∑ j ∈ Finset.Icc (-K) K, elR a j * elR b (j - L) := by
    have hmap : Finset.Icc (-K - L) (K - L) =
        (Finset.Icc (-K) K).map (addRightEmbedding (-L)) := by
      rw [Finset.map_add_right_Icc]
      congr 1
    rw [hmap, Finset.sum_map]
    apply Finset.sum_congr rfl
    intro j _
    have e1 : addRightEmbedding (-L) j = j - L := by
      simp [addRightEmbedding_apply, sub_eq_add_neg]
    rw [e1]
    have e2 : j - L + L = j := by ring
    rw [e2, mul_comm]
  rw [h1, h2, h3]

/-- C7: the normalized cross-correlation computed by the notebook
(`correlate(a, b, nsamples)` with obspy defaults: demeaning and naive
normalization) is reverse-symmetric in its arguments: correlating `a`
against `b` gives, lag by lag, the same array as correlating `b` against
`a` read backwards, i.e. the value of one at lag `L` is the value of the
other at lag `-L`, exactly, over the exact-arithmetic embedding. -/
theorem correlate_reverse_symmetry (a b : List ℝ) (shift : ℕ) :
    obspy_correlate a b shift = (obspy_correlate b a shift).reverse := by
  unfold obspy_correlate
  apply List.ext_getElem
  · simp
  · intro i h1 h2
    simp only [List.getElem_reverse, List.getElem_map, List.getElem_range, List.length_map,
      List.length_range, List.length_reverse]
    have hi : i < 2 * shift + 1 := by simpa using h1
    have hnrm : Real.sqrt (sumsq (demeanR b) * sumsq (demeanR a)) =
        Real.sqrt (sumsq (demeanR a) * sumsq (demeanR b)) := by
      rw [mul_comm]
    have hidx : ((2 * shift + 1 - 1 - i : ℕ) : ℤ) - (shift : ℤ) = -((i : ℤ) - (shift : ℤ)) := by
      omega
    rw [hnrm, hidx, ← rawcc_comm]
